import Mathlib

/-!
Shallow embedding of the `rust-lmsr` prediction-market core
(`src/rust-lmsr/src/lib.rs`, `probability_engine.rs`, `market_maker.rs`,
`risk_assessment.rs`).

Modelling conventions:
* `rust_decimal::Decimal` values are modelled as exact rationals `ℚ`.
  `Decimal::from_f64 : f64 -> Option<Decimal>` is modelled by letting the
  `f64`-typed source fields (`MarketConfig.liquidity_param`, `Bet.amount`)
  carry the conversion result directly, with type `Option ℚ` (`none` models
  a non-finite or unrepresentable `f64`).
* `Decimal::exp` and `Decimal::ln` (Taylor approximations in the source)
  are modelled by the exact `Real.exp` and `Real.log`, so quantities
  computed downstream of them live in `ℝ`.
* `checked_add` never overflows in `ℚ` or `ℝ`, so the overflow arm of the
  source try_fold is unreachable in the model; `checked_div` fails exactly
  on a zero divisor, which the model tests explicitly.
* Plain (unchecked) `Decimal` division panics on a zero divisor in Rust;
  in the model, `ℚ`/`ℝ` field division returns `0` there.  Theorems about
  such code paths carry hypotheses (positive liquidity, non-negative
  stakes) under which the divisor is provably non-zero, so no conclusion
  rests on the junk value of a division the source would panic on.
* Error messages (Rust `String` payloads) are dropped; only the error
  constructor, and the index payload of `InvalidOutcomeIndex`, are kept.
-/

namespace BNBMarket

/-- Mirror of the `MarketType` enum in `lib.rs`; informational only. -/
inductive MarketType
  | Binary
  | Categorical
  | Scalar
deriving DecidableEq, Repr

/-- Mirror of `Bet { option_id: usize, amount: f64 }`; `amount` carries the
result of `Decimal::from_f64(bet.amount)`. -/
structure Bet where
  option_id : Nat
  amount : Option ℚ
deriving DecidableEq, Repr

/-- Mirror of `MarketConfig`; `liquidity_param` carries the result of
`Decimal::from_f64(config.liquidity_param)`. -/
structure MarketConfig where
  liquidity_param : Option ℚ
  num_outcomes : Nat
  market_type : MarketType
deriving DecidableEq, Repr

/-- Mirror of the `MarketError` enum in `lib.rs`, without message strings. -/
inductive MarketError
  | InvalidOutcomeIndex : Nat → MarketError
  | InvalidLiquidity : MarketError
  | CalculationError : MarketError
  | InsufficientData : MarketError
deriving DecidableEq, Repr

/-- The amount a bet contributes to outcome totals:
`Decimal::from_f64(bet.amount).unwrap_or(Decimal::ZERO)`. -/
def betAmount (b : Bet) : ℚ := b.amount.getD 0

/-- The accumulation loop
`for bet in bets { outcome_totals[bet.option_id] += bet_amount }`
(all three engines run this loop over a totals vector of length
`num_outcomes`; every executed update has `option_id` in range, so the
out-of-range no-op of `List.set` is never exercised). -/
def accumulateTotals (bets : List Bet) (totals : List ℚ) : List ℚ :=
  bets.foldl (fun ts b => ts.set b.option_id (ts.getD b.option_id 0 + betAmount b)) totals

/-- Mirror of `ProbabilityEngine { config: MarketConfig }`. -/
structure ProbabilityEngine where
  config : MarketConfig
deriving DecidableEq

namespace ProbabilityEngine

/-- Translation of `ProbabilityEngine::calculate_probabilities`
(`probability_engine.rs`): validate indices, convert the liquidity
parameter, seed and accumulate outcome totals, scale by `max_total / 10`,
exponentiate, and normalise by the checked sum. -/
noncomputable def calculate_probabilities (eng : ProbabilityEngine) (bets : List Bet) :
    Except MarketError (List ℝ) :=
  if bets.any (fun b => eng.config.num_outcomes ≤ b.option_id) then
    .error (.InvalidOutcomeIndex
      (((bets.find? (fun b => eng.config.num_outcomes ≤ b.option_id)).map Bet.option_id).getD 0))
  else
    match eng.config.liquidity_param with
    | none => .error .InvalidLiquidity
    | some liquidity =>
      let initial_liquidity : ℚ := liquidity / (eng.config.num_outcomes : ℚ)
      let outcome_totals : List ℚ :=
        accumulateTotals bets (List.replicate eng.config.num_outcomes initial_liquidity)
      let max_total : ℚ := outcome_totals.max?.getD 0
      let scale_factor : ℚ := max_total / 10
      let exp_values : List ℝ :=
        outcome_totals.map (fun total => Real.exp ((total / scale_factor : ℚ) : ℝ))
      let sum_exp : ℝ := exp_values.sum
      if sum_exp = 0 then .error .CalculationError
      else .ok (exp_values.map (fun e => e / sum_exp))

/-- Translation of `ProbabilityEngine::calculate_price`. -/
noncomputable def calculate_price (eng : ProbabilityEngine) (bets : List Bet)
    (outcome_index : Nat) : Except MarketError ℝ :=
  if eng.config.num_outcomes ≤ outcome_index then
    .error (.InvalidOutcomeIndex outcome_index)
  else
    match calculate_probabilities eng bets with
    | .error e => .error e
    | .ok probabilities =>
      match probabilities[outcome_index]? with
      | some p => .ok p
      | none => .error (.InvalidOutcomeIndex outcome_index)

end ProbabilityEngine

/-- Mirror of `MarketMakingStrategy` in `lib.rs`.  The source converts the
decimal quantities to `f64` with `to_f64().unwrap_or(0.0)` at the external
boundary; the model keeps the exact pre-conversion values (bid/ask/spread
are decimal arithmetic, `recommended_liquidity` goes through `ln`). -/
structure MarketMakingStrategy where
  bid_prices : List ℚ
  ask_prices : List ℚ
  spread : ℚ
  recommended_liquidity : ℝ

/-- Mirror of `MarketMakerEngine { config: MarketConfig }`. -/
structure MarketMakerEngine where
  config : MarketConfig
deriving DecidableEq

namespace MarketMakerEngine

/-- Translation of `MarketMakerEngine::calculate_market_probabilities`
(`market_maker.rs`): convert the liquidity parameter, seed and accumulate
outcome totals (rejecting an out-of-range `option_id` inside the loop,
which yields the first offending index), then divide each total by the
(unchecked) sum of all totals. -/
def calculate_market_probabilities (eng : MarketMakerEngine) (bets : List Bet) :
    Except MarketError (List ℚ) :=
  match eng.config.liquidity_param with
  | none => .error .InvalidLiquidity
  | some liquidity_param =>
    if bets.any (fun b => eng.config.num_outcomes ≤ b.option_id) then
      .error (.InvalidOutcomeIndex
        (((bets.find? (fun b => eng.config.num_outcomes ≤ b.option_id)).map Bet.option_id).getD 0))
    else
      let initial_liquidity : ℚ := liquidity_param / (eng.config.num_outcomes : ℚ)
      let outcome_totals : List ℚ :=
        accumulateTotals bets (List.replicate eng.config.num_outcomes initial_liquidity)
      let total_volume : ℚ := outcome_totals.sum
      .ok (outcome_totals.map (fun amount => amount / total_volume))

/-- Translation of `MarketMakerEngine::calculate_bid_prices`:
`prob * Decimal::new(95, 2)`, i.e. `prob * 0.95`. -/
def calculate_bid_prices (probabilities : List ℚ) : List ℚ :=
  probabilities.map (fun prob => prob * (95 / 100 : ℚ))

/-- Translation of `MarketMakerEngine::calculate_ask_prices`:
`prob * Decimal::new(105, 2)`, i.e. `prob * 1.05`. -/
def calculate_ask_prices (probabilities : List ℚ) : List ℚ :=
  probabilities.map (fun prob => prob * (105 / 100 : ℚ))

/-- Translation of `MarketMakerEngine::calculate_spread`: the mean of the
pairwise ask-minus-bid differences. -/
def calculate_spread (bid_prices ask_prices : List ℚ) : ℚ :=
  ((bid_prices.zip ask_prices).map (fun p => p.2 - p.1)).sum / (bid_prices.length : ℚ)

/-- Translation of `MarketMakerEngine::calculate_recommended_liquidity`:
natural-log Shannon entropy of the probabilities (zero term for a
non-positive probability), then `liquidity_param * (1 + entropy)`; note the
source uses `Decimal::from_f64(...).unwrap_or(Decimal::from(10))` here. -/
noncomputable def calculate_recommended_liquidity (eng : MarketMakerEngine)
    (probabilities : List ℚ) : ℝ :=
  let entropy : ℝ :=
    -(probabilities.map (fun p : ℚ =>
        if 0 < p then (p : ℝ) * Real.log (p : ℝ) else 0)).sum
  let liquidity_param : ℚ := eng.config.liquidity_param.getD 10
  (liquidity_param : ℝ) * (1 + entropy)

/-- Translation of `MarketMakerEngine::simulate_strategy`. -/
noncomputable def simulate_strategy (eng : MarketMakerEngine) (bets : List Bet) :
    Except MarketError MarketMakingStrategy :=
  match calculate_market_probabilities eng bets with
  | .error e => .error e
  | .ok probabilities =>
    let bid_prices := calculate_bid_prices probabilities
    let ask_prices := calculate_ask_prices probabilities
    .ok ⟨bid_prices, ask_prices,
         calculate_spread bid_prices ask_prices,
         calculate_recommended_liquidity eng probabilities⟩

end MarketMakerEngine

/-- Mirror of `MarketRiskProfile` in `lib.rs`; as with the strategy, the
model keeps the exact pre-`f64`-conversion values. -/
structure MarketRiskProfile where
  probabilities : List ℚ
  entropy : ℝ
  concentration : ℚ
  expected_volatility : ℚ
  liquidity_risk : ℚ

/-- Mirror of `RiskAssessmentEngine { config: MarketConfig }`. -/
structure RiskAssessmentEngine where
  config : MarketConfig
deriving DecidableEq

namespace RiskAssessmentEngine

/-- Translation of `RiskAssessmentEngine::calculate_market_probabilities`
(`risk_assessment.rs`); the source body is textually identical to
`MarketMakerEngine::calculate_market_probabilities`. -/
def calculate_market_probabilities (eng : RiskAssessmentEngine) (bets : List Bet) :
    Except MarketError (List ℚ) :=
  match eng.config.liquidity_param with
  | none => .error .InvalidLiquidity
  | some liquidity_param =>
    if bets.any (fun b => eng.config.num_outcomes ≤ b.option_id) then
      .error (.InvalidOutcomeIndex
        (((bets.find? (fun b => eng.config.num_outcomes ≤ b.option_id)).map Bet.option_id).getD 0))
    else
      let initial_liquidity : ℚ := liquidity_param / (eng.config.num_outcomes : ℚ)
      let outcome_totals : List ℚ :=
        accumulateTotals bets (List.replicate eng.config.num_outcomes initial_liquidity)
      let total_volume : ℚ := outcome_totals.sum
      .ok (outcome_totals.map (fun amount => amount / total_volume))

/-- Translation of `RiskAssessmentEngine::calculate_entropy`:
`-Σ (if p > 0 then p * ln p else 0)`. -/
noncomputable def calculate_entropy (probabilities : List ℚ) : ℝ :=
  -(probabilities.map (fun p : ℚ =>
      if 0 < p then (p : ℝ) * Real.log (p : ℝ) else 0)).sum

/-- Translation of `RiskAssessmentEngine::calculate_concentration`:
the maximum probability, `Decimal::ZERO` for an empty vector. -/
def calculate_concentration (probabilities : List ℚ) : ℚ :=
  probabilities.max?.getD 0

/-- Translation of `RiskAssessmentEngine::estimate_volatility`:
population variance of the probability vector. -/
def estimate_volatility (probabilities : List ℚ) : ℚ :=
  let mean_prob : ℚ := probabilities.sum / (probabilities.length : ℚ)
  (probabilities.map (fun p => (p - mean_prob) ^ 2)).sum / (probabilities.length : ℚ)

/-- Translation of `RiskAssessmentEngine::assess_liquidity_risk`:
`max_bet / total_volume` when the total volume is positive, else `1`. -/
def assess_liquidity_risk (bets : List Bet) : ℚ :=
  let total_volume : ℚ := (bets.map betAmount).sum
  let max_bet : ℚ := (bets.map betAmount).max?.getD 0
  if 0 < total_volume then max_bet / total_volume else 1

/-- Translation of `RiskAssessmentEngine::assess_risk`. -/
noncomputable def assess_risk (eng : RiskAssessmentEngine) (bets : List Bet) :
    Except MarketError MarketRiskProfile :=
  match calculate_market_probabilities eng bets with
  | .error e => .error e
  | .ok probabilities =>
    .ok ⟨probabilities,
         calculate_entropy probabilities,
         calculate_concentration probabilities,
         estimate_volatility probabilities,
         assess_liquidity_risk bets⟩

end RiskAssessmentEngine

/-- Mirror of the `PredictionMarketEngine` facade in `lib.rs`: one config
and one instance of each engine.  The wasm-boundary (de)serialisation and
`f64` conversion are external-interface marshalling and are not modelled. -/
structure PredictionMarketEngine where
  config : MarketConfig
  probability_engine : ProbabilityEngine
  market_maker : MarketMakerEngine
  risk_assessment : RiskAssessmentEngine

namespace PredictionMarketEngine

/-- Translation of `PredictionMarketEngine::new`: builds every engine from
clones of the same configuration. -/
def new (liquidity_param : Option ℚ) (num_outcomes : Nat) (market_type : MarketType) :
    PredictionMarketEngine :=
  let config : MarketConfig := ⟨liquidity_param, num_outcomes, market_type⟩
  ⟨config, ⟨config⟩, ⟨config⟩, ⟨config⟩⟩

/-- Facade operation `calculateProbabilities`: delegates to the
probability engine. -/
noncomputable def calculate_probabilities (eng : PredictionMarketEngine) (bets : List Bet) :
    Except MarketError (List ℝ) :=
  eng.probability_engine.calculate_probabilities bets

/-- Facade operation `simulateMarketMaking`: delegates to the market
maker. -/
noncomputable def simulate_market_making (eng : PredictionMarketEngine) (bets : List Bet) :
    Except MarketError MarketMakingStrategy :=
  eng.market_maker.simulate_strategy bets

/-- Facade operation `assessMarketRisk`: delegates to the risk engine. -/
noncomputable def assess_market_risk (eng : PredictionMarketEngine) (bets : List Bet) :
    Except MarketError MarketRiskProfile :=
  eng.risk_assessment.assess_risk bets

/-- Facade operation `calculatePrice`: delegates to the probability
engine. -/
noncomputable def calculate_price (eng : PredictionMarketEngine) (bets : List Bet)
    (outcome_index : Nat) : Except MarketError ℝ :=
  eng.probability_engine.calculate_price bets outcome_index

end PredictionMarketEngine

/-! Infrastructure: the accumulation loop computes, per outcome index, the
seed plus the sum of the matching bets' amounts. -/

theorem accumulateTotals_nil (ts : List ℚ) : accumulateTotals [] ts = ts := rfl

theorem accumulateTotals_cons (b : Bet) (bs : List Bet) (ts : List ℚ) :
    accumulateTotals (b :: bs) ts
      = accumulateTotals bs (ts.set b.option_id (ts.getD b.option_id 0 + betAmount b)) := rfl

theorem length_accumulateTotals (bets : List Bet) (ts : List ℚ) :
    (accumulateTotals bets ts).length = ts.length := by
  induction bets generalizing ts with
  | nil => rfl
  | cons b bs ih => rw [accumulateTotals_cons, ih, List.length_set]

theorem getD_accumulateTotals (bets : List Bet) (ts : List ℚ) (i : Nat) (hi : i < ts.length) :
    (accumulateTotals bets ts).getD i 0
      = ts.getD i 0 + ((bets.filter (fun b => b.option_id == i)).map betAmount).sum := by
  induction bets generalizing ts with
  | nil => simp [accumulateTotals_nil]
  | cons b bs ih =>
    rw [accumulateTotals_cons]
    rw [ih _ (by rw [List.length_set]; exact hi)]
    by_cases hb : b.option_id = i
    · subst hb
      rw [List.getD_eq_getElem?_getD, List.getElem?_set_self (by exact hi), Option.getD_some]
      simp only [List.filter_cons, beq_self_eq_true, if_true, ite_true,
        List.map_cons, List.sum_cons]
      ring
    · rw [List.getD_eq_getElem?_getD (ts.set b.option_id _), List.getElem?_set_ne hb,
        ← List.getD_eq_getElem?_getD]
      simp only [List.filter_cons]
      rw [if_neg (by simpa using hb)]

theorem accumulateTotals_replicate (bets : List Bet) (n : Nat) (init : ℚ) :
    accumulateTotals bets (List.replicate n init)
      = (List.range n).map (fun i =>
          init + ((bets.filter (fun b => b.option_id == i)).map betAmount).sum) := by
  apply List.ext_getElem
  · rw [length_accumulateTotals, List.length_replicate, List.length_map, List.length_range]
  · intro i h1 h2
    have hi : i < n := by
      rwa [length_accumulateTotals, List.length_replicate] at h1
    have hl : i < (List.replicate n init).length := by rwa [List.length_replicate]
    rw [← List.getD_eq_getElem _ 0 h1, getD_accumulateTotals bets _ i hl,
      List.getD_eq_getElem _ 0 hl, List.getElem_replicate, List.getElem_map, List.getElem_range]

theorem sum_indicator_range (n j : Nat) (a : ℚ) (hj : j < n) :
    ((List.range n).map (fun i => if j = i then a else 0)).sum = a := by
  induction n with
  | zero => omega
  | succ m ih =>
    rw [List.range_succ, List.map_append, List.sum_append]
    by_cases h : j = m
    · subst h
      have hz : ((List.range j).map (fun i => if j = i then a else 0)).sum = 0 := by
        apply List.sum_eq_zero
        intro x hx
        obtain ⟨i, hi, rfl⟩ := List.mem_map.mp hx
        have hij : i < j := List.mem_range.mp hi
        rw [if_neg (by omega)]
      rw [hz]
      simp
    · have hj2 : j < m := by omega
      rw [ih hj2]
      simp [h]

theorem sum_bucket (bets : List Bet) (n : Nat)
    (hid : ∀ b ∈ bets, b.option_id < n) :
    ((List.range n).map (fun i =>
        ((bets.filter (fun b => b.option_id == i)).map betAmount).sum)).sum
      = (bets.map betAmount).sum := by
  induction bets with
  | nil => simp
  | cons b bs ih =>
    have hb : b.option_id < n := hid b (List.mem_cons_self b bs)
    have hbs : ∀ x ∈ bs, x.option_id < n := fun x hx => hid x (List.mem_cons_of_mem b hx)
    have hsplit : ∀ i : Nat,
        ((List.filter (fun x => x.option_id == i) (b :: bs)).map betAmount).sum
          = (if b.option_id = i then betAmount b else 0)
            + ((List.filter (fun x => x.option_id == i) bs).map betAmount).sum := by
      intro i
      rw [List.filter_cons]
      by_cases h : b.option_id = i
      · rw [if_pos (by simpa using h), if_pos h, List.map_cons, List.sum_cons]
      · rw [if_neg (by simpa using h), if_neg h, zero_add]
    calc ((List.range n).map (fun i =>
            ((List.filter (fun x => x.option_id == i) (b :: bs)).map betAmount).sum)).sum
        = ((List.range n).map (fun i =>
            (if b.option_id = i then betAmount b else 0)
              + ((List.filter (fun x => x.option_id == i) bs).map betAmount).sum)).sum := by
          exact congrArg List.sum (List.map_congr_left (fun i _ => hsplit i))
      _ = betAmount b + (bs.map betAmount).sum := by
          rw [List.sum_map_add, sum_indicator_range n b.option_id (betAmount b) hb, ih hbs]
      _ = ((b :: bs).map betAmount).sum := by rw [List.map_cons, List.sum_cons]

/-! Infrastructure: general facts about sums of positive lists, and the
shape of the probability-engine result. -/

theorem lt_sum_of_mem_of_pos (l : List ℝ) (hpos : ∀ x ∈ l, 0 < x) (hlen : 2 ≤ l.length)
    (x : ℝ) (hx : x ∈ l) : x < l.sum := by
  obtain ⟨s, t, rfl⟩ := List.mem_iff_append.mp hx
  rw [List.sum_append, List.sum_cons]
  have hs : 0 ≤ s.sum :=
    List.sum_nonneg (fun y hy => le_of_lt (hpos y (by simp [hy])))
  have ht : 0 ≤ t.sum :=
    List.sum_nonneg (fun y hy => le_of_lt (hpos y (by simp [hy])))
  rcases s with _ | ⟨a, s⟩
  · have htne : t ≠ [] := by
      intro h
      subst h
      simp at hlen
    have : 0 < t.sum :=
      List.sum_pos t (fun y hy => hpos y (by simp [hy])) htne
    simpa using by linarith
  · have : 0 < ((a :: s).sum) := by
      apply List.sum_pos _ _ (by simp)
      intro y hy
      apply hpos
      rcases List.mem_cons.mp hy with h | h
      · simp [h]
      · simp [h]
    linarith

theorem any_out_of_range_eq_false (bets : List Bet) (n : Nat)
    (hid : ∀ b ∈ bets, b.option_id < n) :
    (bets.any fun b => n ≤ b.option_id) = false := by
  rw [List.any_eq_false]
  intro b hb
  simpa using Nat.not_le.mpr (hid b hb)

namespace ProbabilityEngine

/-- Reduction of `calculate_probabilities` on in-range bets with a
convertible liquidity parameter: the validation passes and the result is
the exponential normalisation of the accumulated totals. -/
theorem calcProb_of_inrange (eng : ProbabilityEngine) (bets : List Bet) (l : ℚ)
    (hl : eng.config.liquidity_param = some l)
    (hid : ∀ b ∈ bets, b.option_id < eng.config.num_outcomes) :
    calculate_probabilities eng bets =
      (let totals := accumulateTotals bets
          (List.replicate eng.config.num_outcomes (l / (eng.config.num_outcomes : ℚ)))
       let E := totals.map (fun t =>
          Real.exp ((t / (totals.max?.getD 0 / 10) : ℚ) : ℝ))
       if E.sum = 0 then .error .CalculationError
       else .ok (E.map (fun e => e / E.sum))) := by
  have hguard := any_out_of_range_eq_false bets eng.config.num_outcomes hid
  simp only [calculate_probabilities, hguard, Bool.false_eq_true, if_false, hl]

/-- Every successful probability vector has length `num_outcomes`. -/
theorem calcProb_length (eng : ProbabilityEngine) (bets : List Bet) (ps : List ℝ)
    (hok : calculate_probabilities eng bets = .ok ps) :
    ps.length = eng.config.num_outcomes := by
  unfold calculate_probabilities at hok
  by_cases hg : (bets.any fun b => eng.config.num_outcomes ≤ b.option_id) = true
  · rw [if_pos hg] at hok
    cases hok
  · rw [if_neg hg] at hok
    cases hlp : eng.config.liquidity_param with
    | none =>
      rw [hlp] at hok
      cases hok
    | some l =>
      rw [hlp] at hok
      simp only at hok
      by_cases hS : (((accumulateTotals bets
            (List.replicate eng.config.num_outcomes (l / (eng.config.num_outcomes : ℚ)))).map
            (fun t => Real.exp ((t / ((accumulateTotals bets
              (List.replicate eng.config.num_outcomes
                (l / (eng.config.num_outcomes : ℚ)))).max?.getD 0 / 10) : ℚ) : ℝ))).sum = 0)
      · rw [if_pos hS] at hok
        cases hok
      · rw [if_neg hS] at hok
        injection hok with h
        rw [← h, List.length_map, List.length_map, length_accumulateTotals,
          List.length_replicate]

/-- Success and invariants of `calculate_probabilities` on a valid
configuration and in-range bet list: the result is `Ok`, has length
`num_outcomes`, sums to exactly `1`, and every entry is positive, strictly
below `1` as soon as there are at least two outcomes. -/
theorem calcProb_ok_shape (eng : ProbabilityEngine) (bets : List Bet) (l : ℚ)
    (hn : 1 ≤ eng.config.num_outcomes)
    (hl : eng.config.liquidity_param = some l)
    (hid : ∀ b ∈ bets, b.option_id < eng.config.num_outcomes) :
    ∃ ps : List ℝ,
      calculate_probabilities eng bets = .ok ps ∧
      ps.length = eng.config.num_outcomes ∧
      ps.sum = 1 ∧ (∀ p ∈ ps, 0 < p) ∧
      (2 ≤ eng.config.num_outcomes → ∀ p ∈ ps, p < 1) := by
  rw [calcProb_of_inrange eng bets l hl hid]
  simp only []
  set totals := accumulateTotals bets
      (List.replicate eng.config.num_outcomes (l / (eng.config.num_outcomes : ℚ))) with htot
  set E := totals.map (fun t =>
      Real.exp ((t / (totals.max?.getD 0 / 10) : ℚ) : ℝ)) with hE
  have hlen : E.length = eng.config.num_outcomes := by
    rw [hE, List.length_map, htot, length_accumulateTotals, List.length_replicate]
  have hEne : E ≠ [] := by
    rw [← List.length_pos, hlen]
    omega
  have hEpos : ∀ x ∈ E, 0 < x := by
    intro x hx
    rw [hE] at hx
    obtain ⟨t, _, rfl⟩ := List.mem_map.mp hx
    exact Real.exp_pos _
  have hS : 0 < E.sum := List.sum_pos E hEpos hEne
  rw [if_neg hS.ne']
  refine ⟨E.map (fun e => e / E.sum), rfl, ?_, ?_, ?_, ?_⟩
  · rw [List.length_map, hlen]
  · have hmr := List.sum_map_mul_right E (fun x => x) (E.sum)⁻¹
    simp only [List.map_id'] at hmr
    calc (E.map (fun e => e / E.sum)).sum
        = (E.map (fun e => e * (E.sum)⁻¹)).sum := by
          simp only [div_eq_mul_inv]
      _ = E.sum * (E.sum)⁻¹ := hmr
      _ = 1 := mul_inv_cancel₀ hS.ne'
  · intro p hp
    obtain ⟨e, he, rfl⟩ := List.mem_map.mp hp
    exact div_pos (hEpos e he) hS
  · intro hn2 p hp
    obtain ⟨e, he, rfl⟩ := List.mem_map.mp hp
    have : e < E.sum := lt_sum_of_mem_of_pos E hEpos (by omega) e he
    exact (div_lt_one hS).mpr this

end ProbabilityEngine

/-! Infrastructure: the accumulated totals depend only on the per-outcome
multiset of amounts, hence are invariant under permutation and under
appending a zero-amount bet. -/

theorem accumulateTotals_perm (bets bets2 : List Bet) (hperm : bets.Perm bets2)
    (n : Nat) (init : ℚ) :
    accumulateTotals bets (List.replicate n init)
      = accumulateTotals bets2 (List.replicate n init) := by
  rw [accumulateTotals_replicate, accumulateTotals_replicate]
  apply List.map_congr_left
  intro i _
  rw [List.Perm.sum_eq (List.Perm.map betAmount
    (List.Perm.filter (fun b => b.option_id == i) hperm))]

theorem accumulateTotals_append_zero_amount (bets : List Bet) (j n : Nat) (init : ℚ) :
    accumulateTotals (bets ++ [⟨j, some 0⟩]) (List.replicate n init)
      = accumulateTotals bets (List.replicate n init) := by
  rw [accumulateTotals_replicate, accumulateTotals_replicate]
  apply List.map_congr_left
  intro i _
  rw [List.filter_append, List.map_append, List.sum_append]
  have hz : ((([⟨j, some 0⟩] : List Bet).filter (fun b => b.option_id == i)).map betAmount).sum
      = 0 := by
    by_cases h : j = i <;> simp [List.filter_cons, h, betAmount]
  rw [hz, add_zero]

namespace ProbabilityEngine

/-- Two in-range bet lists that accumulate to the same totals produce the
same probability result. -/
theorem calcProb_eq_of_totals (eng : ProbabilityEngine) (bets bets2 : List Bet)
    (hid : ∀ b ∈ bets, b.option_id < eng.config.num_outcomes)
    (hid2 : ∀ b ∈ bets2, b.option_id < eng.config.num_outcomes)
    (htot : ∀ init : ℚ,
      accumulateTotals bets (List.replicate eng.config.num_outcomes init)
        = accumulateTotals bets2 (List.replicate eng.config.num_outcomes init)) :
    calculate_probabilities eng bets = calculate_probabilities eng bets2 := by
  cases hlp : eng.config.liquidity_param with
  | none =>
    have h1 := any_out_of_range_eq_false bets _ hid
    have h2 := any_out_of_range_eq_false bets2 _ hid2
    simp only [calculate_probabilities, h1, h2, Bool.false_eq_true, if_false, hlp]
  | some l =>
    rw [calcProb_of_inrange eng bets l hlp hid, calcProb_of_inrange eng bets2 l hlp hid2,
      htot (l / (eng.config.num_outcomes : ℚ))]

end ProbabilityEngine

/-- The seeded, accumulated totals sum to the liquidity parameter plus the
total staked volume (for in-range bets). -/
theorem seeded_totals_sum (bets : List Bet) (n : Nat) (l : ℚ)
    (hn : 1 ≤ n) (hid : ∀ b ∈ bets, b.option_id < n) :
    ((List.range n).map (fun i =>
        l / (n : ℚ) + ((bets.filter (fun b => b.option_id == i)).map betAmount).sum)).sum
      = l + (bets.map betAmount).sum := by
  have hne : (n : ℚ) ≠ 0 := Nat.cast_ne_zero.mpr (by omega)
  rw [List.sum_map_add]
  congr 1
  · rw [List.map_const', List.length_range, List.sum_replicate, nsmul_eq_mul]
    field_simp
  · exact sum_bucket bets _ hid

theorem list_sum_nonpos (l : List ℝ) (h : ∀ x ∈ l, x ≤ 0) : l.sum ≤ 0 := by
  induction l with
  | nil => simp
  | cons a t ih =>
    rw [List.sum_cons]
    have h1 := h a (by simp)
    have h2 := ih (fun x hx => h x (by simp [hx]))
    linarith

namespace MarketMakerEngine

/-- Reduction of the market-maker probability routine on in-range bets:
the result is the linear normalisation of the accumulated totals, in
closed form. -/
theorem mmProbs_ok (eng : MarketMakerEngine) (bets : List Bet) (l : ℚ)
    (hn : 1 ≤ eng.config.num_outcomes)
    (hl : eng.config.liquidity_param = some l)
    (hid : ∀ b ∈ bets, b.option_id < eng.config.num_outcomes) :
    calculate_market_probabilities eng bets =
      .ok ((List.range eng.config.num_outcomes).map (fun i =>
        (l / (eng.config.num_outcomes : ℚ)
            + ((bets.filter (fun b => b.option_id == i)).map betAmount).sum)
          / (l + (bets.map betAmount).sum))) := by
  have hguard := any_out_of_range_eq_false bets _ hid
  simp only [calculate_market_probabilities, hl, hguard, Bool.false_eq_true, if_false]
  rw [accumulateTotals_replicate]
  rw [seeded_totals_sum bets _ l hn hid, List.map_map]
  rfl

/-- Every entry of the linear normalisation is positive and at most `1`
under a positive liquidity parameter and non-negative stakes. -/
theorem mm_entry_bounds (bets : List Bet) (n : Nat) (l : ℚ)
    (hn : 1 ≤ n) (hpos : 0 < l)
    (hid : ∀ b ∈ bets, b.option_id < n)
    (hamt : ∀ b ∈ bets, 0 ≤ betAmount b) :
    ∀ p ∈ (List.range n).map (fun i =>
        (l / (n : ℚ) + ((bets.filter (fun b => b.option_id == i)).map betAmount).sum)
          / (l + (bets.map betAmount).sum)),
      0 < p ∧ p ≤ 1 := by
  have hvol : 0 ≤ (bets.map betAmount).sum := by
    apply List.sum_nonneg
    intro x hx
    obtain ⟨b, hb, rfl⟩ := List.mem_map.mp hx
    exact hamt b hb
  have hD : 0 < l + (bets.map betAmount).sum := by linarith
  have hnn : (0 : ℚ) < (n : ℚ) := by exact_mod_cast (by omega : 0 < n)
  have hfs : ∀ i : Nat,
      0 ≤ ((bets.filter (fun b => b.option_id == i)).map betAmount).sum := by
    intro i
    apply List.sum_nonneg
    intro x hx
    obtain ⟨b, hb, rfl⟩ := List.mem_map.mp hx
    exact hamt b (List.mem_filter.mp hb).1
  have hent : ∀ x ∈ (List.range n).map (fun i =>
      l / (n : ℚ) + ((bets.filter (fun b => b.option_id == i)).map betAmount).sum), 0 ≤ x := by
    intro x hx
    obtain ⟨i, _, rfl⟩ := List.mem_map.mp hx
    have := hfs i
    have := (div_pos hpos hnn)
    linarith
  intro p hp
  obtain ⟨i, hi, rfl⟩ := List.mem_map.mp hp
  have htpos : 0 < l / (n : ℚ)
      + ((bets.filter (fun b => b.option_id == i)).map betAmount).sum :=
    add_pos_of_pos_of_nonneg (div_pos hpos hnn) (hfs i)
  refine ⟨div_pos htpos hD, ?_⟩
  rw [div_le_one hD]
  have hmem : l / (n : ℚ) + ((bets.filter (fun b => b.option_id == i)).map betAmount).sum
      ∈ (List.range n).map (fun i =>
        l / (n : ℚ) + ((bets.filter (fun b => b.option_id == i)).map betAmount).sum) :=
    List.mem_map.mpr ⟨i, hi, rfl⟩
  have hle := List.single_le_sum hent _ hmem
  rwa [seeded_totals_sum bets n l hn hid] at hle

/-- The mean bid/ask spread equals one tenth of the probability mass
divided by the number of outcomes. -/
theorem spread_eq_sum (ps : List ℚ) :
    calculate_spread (calculate_bid_prices ps) (calculate_ask_prices ps)
      = (ps.sum * (1 / 10)) / (ps.length : ℚ) := by
  have hzip : (calculate_bid_prices ps).zip (calculate_ask_prices ps)
      = ps.map (fun p => (p * (95 / 100), p * (105 / 100))) := by
    induction ps with
    | nil => rfl
    | cons p t ih =>
      simp only [calculate_bid_prices, calculate_ask_prices, List.map_cons,
        List.zip_cons_cons] at ih ⊢
      rw [ih]
  have hlen : (calculate_bid_prices ps).length = ps.length := by
    rw [calculate_bid_prices, List.length_map]
  rw [calculate_spread, hzip, List.map_map, hlen]
  congr 1
  calc (ps.map ((fun pr : ℚ × ℚ => pr.2 - pr.1)
          ∘ (fun p => (p * (95 / 100), p * (105 / 100))))).sum
      = (ps.map (fun p => p * (1 / 10))).sum := by
        apply congrArg List.sum
        apply List.map_congr_left
        intro a _
        show a * (105 / 100) - a * (95 / 100) = a * (1 / 10)
        ring
    _ = ps.sum * (1 / 10) := by
        have h := List.sum_map_mul_right ps (fun x => x) (1 / 10)
        simpa [List.map_id'] using h

/-- The Shannon-entropy expression used by the engines is non-negative
whenever every probability is at most `1`. -/
theorem entropy_expr_nonneg (ps : List ℚ) (hub : ∀ p ∈ ps, p ≤ 1) :
    0 ≤ -(ps.map (fun p : ℚ =>
        if 0 < p then (p : ℝ) * Real.log (p : ℝ) else 0)).sum := by
  rw [neg_nonneg]
  apply list_sum_nonpos
  intro x hx
  obtain ⟨q, hq, rfl⟩ := List.mem_map.mp hx
  by_cases h : 0 < q
  · rw [if_pos h]
    have hq0 : (0 : ℝ) ≤ (q : ℝ) := le_of_lt (by exact_mod_cast h)
    have hq1 : (q : ℝ) ≤ 1 := by exact_mod_cast hub q hq
    apply mul_nonpos_iff.mpr
    exact Or.inl ⟨hq0, Real.log_nonpos hq0 hq1⟩
  · rw [if_neg h]

/-- The recommended liquidity is positive for a positive liquidity
parameter and probabilities bounded by `1`. -/
theorem recommended_liquidity_pos (eng : MarketMakerEngine) (ps : List ℚ) (l : ℚ)
    (hl : eng.config.liquidity_param = some l) (hpos : 0 < l)
    (hub : ∀ p ∈ ps, p ≤ 1) :
    0 < calculate_recommended_liquidity eng ps := by
  unfold calculate_recommended_liquidity
  simp only [hl, Option.getD_some]
  have hH := entropy_expr_nonneg ps hub
  have hlr : (0 : ℝ) < (l : ℝ) := by exact_mod_cast hpos
  exact mul_pos hlr (by linarith)

end MarketMakerEngine

namespace RiskAssessmentEngine

/-- The risk engine's probability routine is textually identical to the
market maker's; in the model they are definitionally equal. -/
theorem riskProbs_eq_mmProbs (cfg : MarketConfig) (bets : List Bet) :
    calculate_market_probabilities ⟨cfg⟩ bets
      = MarketMakerEngine.calculate_market_probabilities ⟨cfg⟩ bets := rfl

end RiskAssessmentEngine

/-- Concrete evaluation: with two outcomes, any non-zero liquidity
parameter and no bets, the exponential normalisation returns the uniform
vector. -/
theorem calcProb_empty_two (l : ℚ) (hne : l ≠ 0) :
    ProbabilityEngine.calculate_probabilities ⟨⟨some l, 2, .Binary⟩⟩ []
      = .ok [1 / 2, 1 / 2] := by
  rw [ProbabilityEngine.calcProb_of_inrange _ [] l rfl (by simp)]
  simp only [accumulateTotals_nil]
  have hmax : (List.replicate 2 (l / ((2 : Nat) : ℚ))).max?.getD 0 = l / 2 := by
    rw [List.max?_replicate (max_self _)]
    norm_num
  rw [hmax]
  have harg : (l / ((2 : Nat) : ℚ)) / (l / 2 / 10) = 10 := by
    field_simp
    ring
  have hE : (List.replicate 2 (l / ((2 : Nat) : ℚ))).map
      (fun t => Real.exp ((t / (l / 2 / 10) : ℚ) : ℝ))
      = [Real.exp 10, Real.exp 10] := by
    rw [List.map_replicate, harg]
    norm_num
    rfl
  rw [hE]
  have hepos := Real.exp_pos (10 : ℝ)
  have hsum : ([Real.exp 10, Real.exp 10] : List ℝ).sum = 2 * Real.exp 10 := by
    simp [List.sum_cons]
    ring
  rw [if_neg (by rw [hsum]; positivity)]
  rw [hsum]
  have hhalf : Real.exp 10 / (2 * Real.exp 10) = 1 / 2 := by
    rw [div_eq_div_iff (by positivity) (by norm_num)]
    ring
  simp [hhalf]

/-- Claim C1: with at least two outcomes, a finite positive liquidity
parameter, in-range bet indices and (per the data model) non-negative
stakes, `ProbabilityEngine::calculate_probabilities` returns `Ok` with a
vector of length `num_outcomes` whose entries sum to `1` and lie strictly
between `0` and `1`. -/
theorem C1_probabilities_sound (eng : ProbabilityEngine) (bets : List Bet) (l : ℚ)
    (hn : 2 ≤ eng.config.num_outcomes)
    (hl : eng.config.liquidity_param = some l) (hpos : 0 < l)
    (hid : ∀ b ∈ bets, b.option_id < eng.config.num_outcomes)
    (hamt : ∀ b ∈ bets, 0 ≤ betAmount b) :
    ∃ ps : List ℝ,
      ProbabilityEngine.calculate_probabilities eng bets = .ok ps ∧
      ps.length = eng.config.num_outcomes ∧
      ps.sum = 1 ∧ ∀ p ∈ ps, 0 < p ∧ p < 1 := by
  obtain ⟨ps, hok, hlen, hsum, hppos, hplt⟩ :=
    ProbabilityEngine.calcProb_ok_shape eng bets l (by omega) hl hid
  exact ⟨ps, hok, hlen, hsum, fun p hp => ⟨hppos p hp, hplt hn p hp⟩⟩

/-- Witness for C1 at the spec scenario
`num_outcomes=2, liquidity_param=10, bets=[{0,50},{1,30}]`. -/
theorem C1_probabilities_sound_witness :
    ∃ ps : List ℝ,
      ProbabilityEngine.calculate_probabilities ⟨⟨some 10, 2, .Binary⟩⟩
          [⟨0, some 50⟩, ⟨1, some 30⟩] = .ok ps ∧
      ps.length = 2 ∧ ps.sum = 1 ∧ ∀ p ∈ ps, 0 < p ∧ p < 1 :=
  C1_probabilities_sound ⟨⟨some 10, 2, .Binary⟩⟩ [⟨0, some 50⟩, ⟨1, some 30⟩] 10
    (by norm_num) rfl (by norm_num)
    (by intro b hb; fin_cases hb <;> norm_num)
    (by intro b hb; fin_cases hb <;> norm_num [betAmount])

/-- Claim C4: for an in-range outcome index, `calculate_price` returns
exactly that entry of the vector returned by `calculate_probabilities`. -/
theorem C4_price_eq_probability (eng : ProbabilityEngine) (bets : List Bet)
    (i : Nat) (ps : List ℝ)
    (hi : i < eng.config.num_outcomes)
    (hok : ProbabilityEngine.calculate_probabilities eng bets = .ok ps) :
    ProbabilityEngine.calculate_price eng bets i = .ok (ps.getD i 0) := by
  have hlen := ProbabilityEngine.calcProb_length eng bets ps hok
  have hi2 : i < ps.length := by omega
  unfold ProbabilityEngine.calculate_price
  rw [if_neg (by omega : ¬ eng.config.num_outcomes ≤ i), hok]
  simp only [List.getElem?_eq_getElem hi2, List.getD_eq_getElem ps 0 hi2]

/-- Witness for C4: two outcomes, liquidity `10`, no bets, index `0`. -/
theorem C4_price_eq_probability_witness :
    ProbabilityEngine.calculate_price ⟨⟨some 10, 2, .Binary⟩⟩ [] 0
      = .ok (([1 / 2, 1 / 2] : List ℝ).getD 0 0) :=
  C4_price_eq_probability ⟨⟨some 10, 2, .Binary⟩⟩ [] 0 [1 / 2, 1 / 2]
    (by norm_num) (calcProb_empty_two 10 (by norm_num))

/-- Claim C5: `calculate_probabilities` fails with `InvalidOutcomeIndex`
whenever some bet has an out-of-range index, and `calculate_price` fails
with `InvalidOutcomeIndex i` for every bet list (`bets2` is arbitrary, in
particular fully in range) whenever the requested index `i` is out of
range. -/
theorem C5_invalid_outcome_errors (eng : ProbabilityEngine) (bets bets2 : List Bet)
    (i : Nat)
    (hbad : ∃ b ∈ bets, eng.config.num_outcomes ≤ b.option_id)
    (hi : eng.config.num_outcomes ≤ i) :
    (∃ j, eng.config.num_outcomes ≤ j ∧
      ProbabilityEngine.calculate_probabilities eng bets
        = .error (.InvalidOutcomeIndex j)) ∧
    ProbabilityEngine.calculate_price eng bets2 i
      = .error (.InvalidOutcomeIndex i) := by
  constructor
  · have hguard : (bets.any fun b => eng.config.num_outcomes ≤ b.option_id) = true := by
      rw [List.any_eq_true]
      obtain ⟨b, hb, hble⟩ := hbad
      exact ⟨b, hb, by simpa using hble⟩
    have hfind : (bets.find? fun b => eng.config.num_outcomes ≤ b.option_id).isSome := by
      rw [List.find?_isSome]
      obtain ⟨b, hb, hble⟩ := hbad
      exact ⟨b, hb, by simpa using hble⟩
    obtain ⟨b, hb⟩ := Option.isSome_iff_exists.mp hfind
    refine ⟨b.option_id, by simpa using List.find?_some hb, ?_⟩
    unfold ProbabilityEngine.calculate_probabilities
    rw [if_pos hguard, hb]
    rfl
  · unfold ProbabilityEngine.calculate_price
    rw [if_pos hi]

/-- Witness for C5 at the spec scenario `num_outcomes=2, bets=[{5,1}]` for
the probabilities half, and the fully in-range empty bet list with price
index `7` for the price half. -/
theorem C5_invalid_outcome_errors_witness :
    (∃ j, 2 ≤ j ∧
      ProbabilityEngine.calculate_probabilities ⟨⟨some 10, 2, .Binary⟩⟩ [⟨5, some 1⟩]
        = .error (.InvalidOutcomeIndex j)) ∧
    ProbabilityEngine.calculate_price ⟨⟨some 10, 2, .Binary⟩⟩ [] 7
      = .error (.InvalidOutcomeIndex 7) :=
  C5_invalid_outcome_errors ⟨⟨some 10, 2, .Binary⟩⟩ [⟨5, some 1⟩] [] 7
    ⟨⟨5, some 1⟩, by simp, by norm_num⟩ (by norm_num)

/-- Counterexample to claim C3: a finite negative (hence non-positive)
liquidity parameter is not rejected — `calculate_probabilities` returns
`Ok`, not the `InvalidLiquidity` error the claim requires. -/
theorem C3_counterexample :
    ProbabilityEngine.calculate_probabilities ⟨⟨some (-10), 2, .Binary⟩⟩ []
      = .ok [1 / 2, 1 / 2] :=
  calcProb_empty_two (-10) (by norm_num)

/-- Claim C3 (amended): `calculate_probabilities` returns `InvalidLiquidity`
exactly when every bet index is in range and the liquidity parameter fails
the fixed-precision conversion (non-finite or unrepresentable `f64`); a
finite non-positive value passes this validation. -/
theorem C3_amended_invalid_liquidity_iff (eng : ProbabilityEngine) (bets : List Bet) :
    ProbabilityEngine.calculate_probabilities eng bets = .error .InvalidLiquidity ↔
      ((∀ b ∈ bets, b.option_id < eng.config.num_outcomes) ∧
        eng.config.liquidity_param = none) := by
  constructor
  · intro h
    unfold ProbabilityEngine.calculate_probabilities at h
    by_cases hg : (bets.any fun b => eng.config.num_outcomes ≤ b.option_id) = true
    · rw [if_pos hg] at h
      exact absurd h (by simp)
    · rw [if_neg hg] at h
      have hg2 : (bets.any fun b => eng.config.num_outcomes ≤ b.option_id) = false := by
        revert hg
        cases bets.any fun b => eng.config.num_outcomes ≤ b.option_id <;> simp
      have hid : ∀ b ∈ bets, b.option_id < eng.config.num_outcomes := by
        intro b hb
        have := List.any_eq_false.mp hg2 b hb
        simpa using this
      cases hlp : eng.config.liquidity_param with
      | none => exact ⟨hid, rfl⟩
      | some l =>
        rw [hlp] at h
        simp only [] at h
        split at h
        · exact absurd h (by simp)
        · exact absurd h (by simp)
  · rintro ⟨hid, hnone⟩
    have hg := any_out_of_range_eq_false bets _ hid
    unfold ProbabilityEngine.calculate_probabilities
    simp only [hg, Bool.false_eq_true, if_false, hnone]

/-- Witness for the amended C3: a non-convertible liquidity parameter on
an in-range bet list yields `InvalidLiquidity`. -/
theorem C3_amended_invalid_liquidity_iff_witness :
    ProbabilityEngine.calculate_probabilities ⟨⟨none, 2, .Binary⟩⟩ []
      = .error .InvalidLiquidity :=
  (C3_amended_invalid_liquidity_iff ⟨⟨none, 2, .Binary⟩⟩ []).mpr ⟨by simp, rfl⟩

/-- Counterexample to claim C10: permuting a bet list containing
out-of-range indices changes the reported error (the index payload follows
list order). -/
theorem C10_counterexample :
    ([⟨5, some 1⟩, ⟨7, some 1⟩] : List Bet).Perm [⟨7, some 1⟩, ⟨5, some 1⟩] ∧
    ProbabilityEngine.calculate_probabilities ⟨⟨some 10, 2, .Binary⟩⟩
        [⟨5, some 1⟩, ⟨7, some 1⟩]
      ≠ ProbabilityEngine.calculate_probabilities ⟨⟨some 10, 2, .Binary⟩⟩
        [⟨7, some 1⟩, ⟨5, some 1⟩] := by
  constructor
  · exact List.Perm.swap _ _ _
  · have h1 : ProbabilityEngine.calculate_probabilities ⟨⟨some 10, 2, .Binary⟩⟩
        [⟨5, some 1⟩, ⟨7, some 1⟩] = .error (.InvalidOutcomeIndex 5) := by
      unfold ProbabilityEngine.calculate_probabilities
      rw [if_pos (by decide)]
      simp [List.find?]
    have h2 : ProbabilityEngine.calculate_probabilities ⟨⟨some 10, 2, .Binary⟩⟩
        [⟨7, some 1⟩, ⟨5, some 1⟩] = .error (.InvalidOutcomeIndex 7) := by
      unfold ProbabilityEngine.calculate_probabilities
      rw [if_pos (by decide)]
      simp [List.find?]
    rw [h1, h2]
    simp

/-- Claim C10 (amended): on in-range bet lists over a valid configuration
the probability vector depends only on the per-outcome accumulated totals:
permuting the bets, or appending a zero-amount in-range bet, leaves the
result unchanged.  (When some index is out of range, both orders fail with
`InvalidOutcomeIndex`, but the reported index payload may differ.) -/
theorem C10_amended_totals_only (eng : ProbabilityEngine) (bets bets2 : List Bet)
    (j : Nat) (l : ℚ)
    (hn : 2 ≤ eng.config.num_outcomes)
    (hl : eng.config.liquidity_param = some l) (hpos : 0 < l)
    (hperm : bets.Perm bets2)
    (hid : ∀ b ∈ bets, b.option_id < eng.config.num_outcomes)
    (hj : j < eng.config.num_outcomes) :
    ProbabilityEngine.calculate_probabilities eng bets
      = ProbabilityEngine.calculate_probabilities eng bets2 ∧
    ProbabilityEngine.calculate_probabilities eng (bets ++ [⟨j, some 0⟩])
      = ProbabilityEngine.calculate_probabilities eng bets := by
  have hid2 : ∀ b ∈ bets2, b.option_id < eng.config.num_outcomes := by
    intro b hb
    exact hid b (hperm.mem_iff.mpr hb)
  constructor
  · exact ProbabilityEngine.calcProb_eq_of_totals eng bets bets2 hid hid2
      (fun init => accumulateTotals_perm bets bets2 hperm _ init)
  · have hid3 : ∀ b ∈ bets ++ [⟨j, some 0⟩],
        b.option_id < eng.config.num_outcomes := by
      intro b hb
      rcases List.mem_append.mp hb with h | h
      · exact hid b h
      · simp at h
        subst h
        simpa using hj
    exact ProbabilityEngine.calcProb_eq_of_totals eng _ bets hid3 hid
      (fun init => accumulateTotals_append_zero_amount bets j _ init)

/-- Witness for the amended C10 at a concrete two-outcome market. -/
theorem C10_amended_totals_only_witness :
    ProbabilityEngine.calculate_probabilities ⟨⟨some 10, 2, .Binary⟩⟩
        [⟨0, some 5⟩, ⟨1, some 3⟩]
      = ProbabilityEngine.calculate_probabilities ⟨⟨some 10, 2, .Binary⟩⟩
        [⟨1, some 3⟩, ⟨0, some 5⟩] ∧
    ProbabilityEngine.calculate_probabilities ⟨⟨some 10, 2, .Binary⟩⟩
        ([⟨0, some 5⟩, ⟨1, some 3⟩] ++ [⟨0, some 0⟩])
      = ProbabilityEngine.calculate_probabilities ⟨⟨some 10, 2, .Binary⟩⟩
        [⟨0, some 5⟩, ⟨1, some 3⟩] :=
  C10_amended_totals_only ⟨⟨some 10, 2, .Binary⟩⟩ _ _ 0 10
    (by norm_num) rfl (by norm_num) (List.Perm.swap _ _ _)
    (by intro b hb; fin_cases hb <;> norm_num) (by norm_num)

/-- Counterexample to claim C2: on `num_outcomes=2, liquidity=10,
bets=[{0,10}]` the market maker's internal probabilities (linear
normalisation, `[3/4, 1/4]`) differ from the probability engine's
bounded-exponential output. -/
theorem C2_counterexample :
    (MarketMakerEngine.calculate_market_probabilities ⟨⟨some 10, 2, .Binary⟩⟩
        [⟨0, some 10⟩]).map (fun ps => ps.map (fun q : ℚ => (q : ℝ)))
      ≠ ProbabilityEngine.calculate_probabilities ⟨⟨some 10, 2, .Binary⟩⟩
        [⟨0, some 10⟩] := by
  have h1 : MarketMakerEngine.calculate_market_probabilities ⟨⟨some 10, 2, .Binary⟩⟩
      [⟨0, some 10⟩] = .ok [3 / 4, 1 / 4] := by
    rw [MarketMakerEngine.mmProbs_ok _ _ 10 (by norm_num) rfl
      (by intro b hb; fin_cases hb <;> norm_num)]
    norm_num [List.range_succ, betAmount, List.filter_cons]
  have htot : accumulateTotals [⟨0, some 10⟩]
      (List.replicate 2 ((10 : ℚ) / ((2 : Nat) : ℚ))) = [15, 5] := by
    rw [accumulateTotals_cons, accumulateTotals_nil]
    norm_num [betAmount]
    rfl
  have h2 : ProbabilityEngine.calculate_probabilities ⟨⟨some 10, 2, .Binary⟩⟩
      [⟨0, some 10⟩]
      = .ok [Real.exp 10 / (Real.exp 10 + (Real.exp (10 / 3) + 0)),
             Real.exp (10 / 3) / (Real.exp 10 + (Real.exp (10 / 3) + 0))] := by
    rw [ProbabilityEngine.calcProb_of_inrange _ _ 10 rfl
      (by intro b hb; fin_cases hb <;> norm_num)]
    rw [htot]
    have hmax : ([15, 5] : List ℚ).max?.getD 0 = 15 := by
      rw [List.max?_cons]
      norm_num [List.max?_cons, List.max?_nil]
    simp only [hmax]
    have hE : ([15, 5] : List ℚ).map (fun t => Real.exp ((t / (15 / 10) : ℚ) : ℝ))
        = [Real.exp 10, Real.exp (10 / 3)] := by
      simp only [List.map_cons, List.map_nil]
      norm_num
    rw [hE]
    rw [if_neg (by simp only [List.sum_cons, List.sum_nil]; positivity)]
    simp only [List.sum_cons, List.sum_nil, List.map_cons, List.map_nil]
  rw [h1, h2]
  intro habs
  simp only [Except.map, List.map_cons, List.map_nil, Except.ok.injEq,
    List.cons.injEq] at habs
  obtain ⟨habs0, _⟩ := habs
  have hE3 : (0 : ℝ) < Real.exp (10 / 3) := Real.exp_pos _
  have hgrow : Real.exp (10 : ℝ) = Real.exp (10 / 3) * Real.exp (20 / 3) := by
    rw [← Real.exp_add]
    norm_num
  have hb : (23 : ℝ) / 3 ≤ Real.exp (20 / 3) := by
    have := Real.add_one_le_exp ((20 : ℝ) / 3)
    linarith
  have hkey : Real.exp (10 / 3) * ((23 : ℝ) / 3) ≤ Real.exp (10 : ℝ) := by
    rw [hgrow]
    exact mul_le_mul_of_nonneg_left hb (le_of_lt hE3)
  have hS : (0 : ℝ) < Real.exp 10 + (Real.exp (10 / 3) + 0) := by positivity
  have hgt : (3 : ℝ) / 4 < Real.exp 10 / (Real.exp 10 + (Real.exp (10 / 3) + 0)) := by
    rw [lt_div_iff hS]
    nlinarith [hkey, hE3]
  push_cast at habs0
  rw [← habs0] at hgt
  exact lt_irrefl _ hgt

/-- Claim C2 (amended): the probability vector `simulate_strategy` uses
internally is the market maker's own linear normalisation — seed
`liquidity/num_outcomes` plus accumulated stakes, divided by the total
volume — not the bounded-exponential output of
`ProbabilityEngine::calculate_probabilities`. -/
theorem C2_amended_mm_probabilities_linear (eng : MarketMakerEngine) (bets : List Bet)
    (l : ℚ)
    (hn : 1 ≤ eng.config.num_outcomes)
    (hl : eng.config.liquidity_param = some l)
    (hid : ∀ b ∈ bets, b.option_id < eng.config.num_outcomes) :
    ∃ ps : List ℚ,
      MarketMakerEngine.calculate_market_probabilities eng bets = .ok ps ∧
      ps = (List.range eng.config.num_outcomes).map (fun i =>
        (l / (eng.config.num_outcomes : ℚ)
            + ((bets.filter (fun b => b.option_id == i)).map betAmount).sum)
          / (l + (bets.map betAmount).sum)) ∧
      MarketMakerEngine.simulate_strategy eng bets =
        .ok ⟨MarketMakerEngine.calculate_bid_prices ps,
             MarketMakerEngine.calculate_ask_prices ps,
             MarketMakerEngine.calculate_spread
               (MarketMakerEngine.calculate_bid_prices ps)
               (MarketMakerEngine.calculate_ask_prices ps),
             MarketMakerEngine.calculate_recommended_liquidity eng ps⟩ := by
  refine ⟨_, MarketMakerEngine.mmProbs_ok eng bets l hn hl hid, rfl, ?_⟩
  unfold MarketMakerEngine.simulate_strategy
  rw [MarketMakerEngine.mmProbs_ok eng bets l hn hl hid]

/-- Witness for the amended C2 on `num_outcomes=2, liquidity=10,
bets=[{0,10}]`. -/
theorem C2_amended_mm_probabilities_linear_witness :
    ∃ ps : List ℚ,
      MarketMakerEngine.calculate_market_probabilities ⟨⟨some 10, 2, .Binary⟩⟩
          [⟨0, some 10⟩] = .ok ps ∧
      ps = (List.range 2).map (fun i =>
        ((10 : ℚ) / ((2 : Nat) : ℚ)
            + ((([⟨0, some 10⟩] : List Bet).filter
                (fun b => b.option_id == i)).map betAmount).sum)
          / (10 + (([⟨0, some 10⟩] : List Bet).map betAmount).sum)) ∧
      MarketMakerEngine.simulate_strategy ⟨⟨some 10, 2, .Binary⟩⟩ [⟨0, some 10⟩] =
        .ok ⟨MarketMakerEngine.calculate_bid_prices ps,
             MarketMakerEngine.calculate_ask_prices ps,
             MarketMakerEngine.calculate_spread
               (MarketMakerEngine.calculate_bid_prices ps)
               (MarketMakerEngine.calculate_ask_prices ps),
             MarketMakerEngine.calculate_recommended_liquidity ⟨⟨some 10, 2, .Binary⟩⟩ ps⟩ :=
  C2_amended_mm_probabilities_linear ⟨⟨some 10, 2, .Binary⟩⟩ [⟨0, some 10⟩] 10
    (by norm_num) rfl (by intro b hb; fin_cases hb <;> norm_num)

/-- Counterexample to claim C6: a non-empty single-bet list also yields
`liquidity_risk = 1` (the largest bet is the entire volume), so the value
is not `1` exactly when the list is empty. -/
theorem C6_counterexample :
    (RiskAssessmentEngine.assess_risk ⟨⟨some 10, 2, .Binary⟩⟩ [⟨0, some 50⟩]).map
        MarketRiskProfile.liquidity_risk = .ok 1 := by
  have hok : RiskAssessmentEngine.calculate_market_probabilities ⟨⟨some 10, 2, .Binary⟩⟩
      [⟨0, some 50⟩] = .ok [11 / 12, 1 / 12] := by
    rw [RiskAssessmentEngine.riskProbs_eq_mmProbs]
    rw [MarketMakerEngine.mmProbs_ok _ _ 10 (by norm_num) rfl
      (by intro b hb; fin_cases hb <;> norm_num)]
    norm_num [List.range_succ, betAmount, List.filter_cons]
  unfold RiskAssessmentEngine.assess_risk
  rw [hok]
  simp only [Except.map]
  congr 1
  unfold RiskAssessmentEngine.assess_liquidity_risk
  norm_num [betAmount, List.max?_cons, List.max?_nil]

/-- Claim C6 (amended): `liquidity_risk` equals `max_bet/total_volume`
when the total volume is positive and exactly `1` otherwise (in particular
for the empty list); it equals `1` precisely when the largest single bet
carries the entire volume, which also happens for non-empty lists (e.g. a
single bet). -/
theorem C6_amended_liquidity_risk (bets : List Bet)
    (h : 0 < (bets.map betAmount).sum) :
    RiskAssessmentEngine.assess_liquidity_risk bets
        = ((bets.map betAmount).max?.getD 0) / (bets.map betAmount).sum ∧
    (RiskAssessmentEngine.assess_liquidity_risk bets = 1 ↔
        (bets.map betAmount).max?.getD 0 = (bets.map betAmount).sum) ∧
    RiskAssessmentEngine.assess_liquidity_risk [] = 1 := by
  refine ⟨?_, ?_, ?_⟩
  · unfold RiskAssessmentEngine.assess_liquidity_risk
    rw [if_pos h]
  · unfold RiskAssessmentEngine.assess_liquidity_risk
    rw [if_pos h]
    exact div_eq_one_iff_eq (ne_of_gt h)
  · unfold RiskAssessmentEngine.assess_liquidity_risk
    norm_num

/-- Witness for the amended C6 on the single-bet list `[{0,50}]`. -/
theorem C6_amended_liquidity_risk_witness :
    RiskAssessmentEngine.assess_liquidity_risk [⟨0, some 50⟩]
        = ((([⟨0, some 50⟩] : List Bet).map betAmount).max?.getD 0)
          / (([⟨0, some 50⟩] : List Bet).map betAmount).sum ∧
    (RiskAssessmentEngine.assess_liquidity_risk [⟨0, some 50⟩] = 1 ↔
        (([⟨0, some 50⟩] : List Bet).map betAmount).max?.getD 0
          = (([⟨0, some 50⟩] : List Bet).map betAmount).sum) ∧
    RiskAssessmentEngine.assess_liquidity_risk [] = 1 :=
  C6_amended_liquidity_risk [⟨0, some 50⟩] (by norm_num [betAmount])

/-- Claim C7: on a valid configuration and valid bets, `simulate_strategy`
succeeds with `bid = 0.95*p` and `ask = 1.05*p` entrywise, hence
`bid ≤ p ≤ ask`, a non-negative spread, and a positive recommended
liquidity. -/
theorem C7_strategy_sound (eng : MarketMakerEngine) (bets : List Bet) (l : ℚ)
    (hn : 2 ≤ eng.config.num_outcomes)
    (hl : eng.config.liquidity_param = some l) (hpos : 0 < l)
    (hid : ∀ b ∈ bets, b.option_id < eng.config.num_outcomes)
    (hamt : ∀ b ∈ bets, 0 ≤ betAmount b) :
    ∃ st ps,
      MarketMakerEngine.simulate_strategy eng bets = .ok st ∧
      MarketMakerEngine.calculate_market_probabilities eng bets = .ok ps ∧
      ps.length = eng.config.num_outcomes ∧
      (∀ i < eng.config.num_outcomes,
        st.bid_prices.getD i 0 = ps.getD i 0 * (95 / 100) ∧
        st.ask_prices.getD i 0 = ps.getD i 0 * (105 / 100) ∧
        st.bid_prices.getD i 0 ≤ ps.getD i 0 ∧
        ps.getD i 0 ≤ st.ask_prices.getD i 0) ∧
      0 ≤ st.spread ∧ 0 < st.recommended_liquidity := by
  have hok := MarketMakerEngine.mmProbs_ok eng bets l (by omega) hl hid
  set ps := (List.range eng.config.num_outcomes).map (fun i =>
      (l / (eng.config.num_outcomes : ℚ)
          + ((bets.filter (fun b => b.option_id == i)).map betAmount).sum)
        / (l + (bets.map betAmount).sum)) with hps
  have hbounds := MarketMakerEngine.mm_entry_bounds bets eng.config.num_outcomes l
      (by omega) hpos hid hamt
  have hlen : ps.length = eng.config.num_outcomes := by
    rw [hps, List.length_map, List.length_range]
  have hstrat : MarketMakerEngine.simulate_strategy eng bets =
      .ok ⟨MarketMakerEngine.calculate_bid_prices ps,
           MarketMakerEngine.calculate_ask_prices ps,
           MarketMakerEngine.calculate_spread
             (MarketMakerEngine.calculate_bid_prices ps)
             (MarketMakerEngine.calculate_ask_prices ps),
           MarketMakerEngine.calculate_recommended_liquidity eng ps⟩ := by
    unfold MarketMakerEngine.simulate_strategy
    rw [hok]
  refine ⟨_, ps, hstrat, hok, hlen, ?_, ?_, ?_⟩
  · intro i hi
    have hi2 : i < ps.length := by omega
    have hmem : ps.getD i 0 ∈ ps := by
      rw [List.getD_eq_getElem ps 0 hi2]
      exact List.getElem_mem hi2
    have hpi := hbounds (ps.getD i 0) hmem
    have hbid : (MarketMakerEngine.calculate_bid_prices ps).getD i 0
        = ps.getD i 0 * (95 / 100) := by
      unfold MarketMakerEngine.calculate_bid_prices
      rw [List.getD_eq_getElem _ 0 (by rw [List.length_map]; exact hi2), List.getElem_map,
        List.getD_eq_getElem ps 0 hi2]
    have hask : (MarketMakerEngine.calculate_ask_prices ps).getD i 0
        = ps.getD i 0 * (105 / 100) := by
      unfold MarketMakerEngine.calculate_ask_prices
      rw [List.getD_eq_getElem _ 0 (by rw [List.length_map]; exact hi2), List.getElem_map,
        List.getD_eq_getElem ps 0 hi2]
    refine ⟨hbid, hask, ?_, ?_⟩
    · rw [hbid]
      linarith [hpi.1]
    · rw [hask]
      linarith [hpi.1]
  · rw [MarketMakerEngine.spread_eq_sum]
    apply div_nonneg
    · apply mul_nonneg
      · apply List.sum_nonneg
        intro x hx
        exact le_of_lt (hbounds x hx).1
      · norm_num
    · exact Nat.cast_nonneg _
  · exact MarketMakerEngine.recommended_liquidity_pos eng ps l hl hpos
      (fun p hp => (hbounds p hp).2)

/-- Witness for C7 at `num_outcomes=2, liquidity=10,
bets=[{0,50},{1,30}]`. -/
theorem C7_strategy_sound_witness :
    ∃ st ps,
      MarketMakerEngine.simulate_strategy ⟨⟨some 10, 2, .Binary⟩⟩
          [⟨0, some 50⟩, ⟨1, some 30⟩] = .ok st ∧
      MarketMakerEngine.calculate_market_probabilities ⟨⟨some 10, 2, .Binary⟩⟩
          [⟨0, some 50⟩, ⟨1, some 30⟩] = .ok ps ∧
      ps.length = 2 ∧
      (∀ i < 2,
        st.bid_prices.getD i 0 = ps.getD i 0 * (95 / 100) ∧
        st.ask_prices.getD i 0 = ps.getD i 0 * (105 / 100) ∧
        st.bid_prices.getD i 0 ≤ ps.getD i 0 ∧
        ps.getD i 0 ≤ st.ask_prices.getD i 0) ∧
      0 ≤ st.spread ∧ 0 < st.recommended_liquidity :=
  C7_strategy_sound ⟨⟨some 10, 2, .Binary⟩⟩ [⟨0, some 50⟩, ⟨1, some 30⟩] 10
    (by norm_num) rfl (by norm_num)
    (by intro b hb; fin_cases hb <;> norm_num)
    (by intro b hb; fin_cases hb <;> norm_num [betAmount])

/-- Claim C8: `assess_risk` on the empty bet list over a valid
configuration returns maximal liquidity risk `1`, uniform concentration
`1/num_outcomes`, and maximal entropy `ln(num_outcomes)`. -/
theorem C8_empty_bets_risk (eng : RiskAssessmentEngine) (l : ℚ)
    (hn : 2 ≤ eng.config.num_outcomes)
    (hl : eng.config.liquidity_param = some l) (hpos : 0 < l) :
    ∃ pr, RiskAssessmentEngine.assess_risk eng [] = .ok pr ∧
      pr.liquidity_risk = 1 ∧
      pr.concentration = 1 / (eng.config.num_outcomes : ℚ) ∧
      pr.entropy = Real.log (eng.config.num_outcomes : ℝ) := by
  have hnn : 0 < eng.config.num_outcomes := by omega
  have hn0 : (0 : ℚ) < (eng.config.num_outcomes : ℚ) := by exact_mod_cast hnn
  have hlne : l ≠ 0 := ne_of_gt hpos
  have hnne : (eng.config.num_outcomes : ℚ) ≠ 0 := ne_of_gt hn0
  have hok := MarketMakerEngine.mmProbs_ok ⟨eng.config⟩ [] l hnn hl (by simp)
  have hentry : ∀ i : Nat,
      (l / (eng.config.num_outcomes : ℚ)
          + ((([] : List Bet).filter (fun b => b.option_id == i)).map betAmount).sum)
        / (l + (([] : List Bet).map betAmount).sum)
      = 1 / (eng.config.num_outcomes : ℚ) := by
    intro i
    simp only [List.filter_nil, List.map_nil, List.sum_nil, add_zero]
    field_simp
    ring
  have hvec : (List.range eng.config.num_outcomes).map (fun i =>
      (l / (eng.config.num_outcomes : ℚ)
          + ((([] : List Bet).filter (fun b => b.option_id == i)).map betAmount).sum)
        / (l + (([] : List Bet).map betAmount).sum))
      = List.replicate eng.config.num_outcomes (1 / (eng.config.num_outcomes : ℚ)) := by
    rw [List.map_congr_left (fun i _ => hentry i), List.map_const', List.length_range]
  rw [hvec] at hok
  have hokr : RiskAssessmentEngine.calculate_market_probabilities eng []
      = .ok (List.replicate eng.config.num_outcomes
        (1 / (eng.config.num_outcomes : ℚ))) :=
    (RiskAssessmentEngine.riskProbs_eq_mmProbs eng.config []).trans hok
  have hassess : RiskAssessmentEngine.assess_risk eng [] = .ok
      ⟨List.replicate eng.config.num_outcomes (1 / (eng.config.num_outcomes : ℚ)),
       RiskAssessmentEngine.calculate_entropy
         (List.replicate eng.config.num_outcomes (1 / (eng.config.num_outcomes : ℚ))),
       RiskAssessmentEngine.calculate_concentration
         (List.replicate eng.config.num_outcomes (1 / (eng.config.num_outcomes : ℚ))),
       RiskAssessmentEngine.estimate_volatility
         (List.replicate eng.config.num_outcomes (1 / (eng.config.num_outcomes : ℚ))),
       RiskAssessmentEngine.assess_liquidity_risk []⟩ := by
    unfold RiskAssessmentEngine.assess_risk
    rw [hokr]
  refine ⟨_, hassess, ?_, ?_, ?_⟩
  · show RiskAssessmentEngine.assess_liquidity_risk [] = 1
    unfold RiskAssessmentEngine.assess_liquidity_risk
    norm_num
  · show RiskAssessmentEngine.calculate_concentration
        (List.replicate eng.config.num_outcomes (1 / (eng.config.num_outcomes : ℚ)))
      = 1 / (eng.config.num_outcomes : ℚ)
    unfold RiskAssessmentEngine.calculate_concentration
    rw [List.max?_replicate (max_self _)]
    rw [if_neg (by omega)]
    rfl
  · show RiskAssessmentEngine.calculate_entropy
        (List.replicate eng.config.num_outcomes (1 / (eng.config.num_outcomes : ℚ)))
      = Real.log (eng.config.num_outcomes : ℝ)
    unfold RiskAssessmentEngine.calculate_entropy
    rw [List.map_replicate, List.sum_replicate]
    rw [if_pos (one_div_pos.mpr hn0)]
    rw [nsmul_eq_mul]
    have hcast : ((1 / (eng.config.num_outcomes : ℚ) : ℚ) : ℝ)
        = ((eng.config.num_outcomes : ℝ))⁻¹ := by
      push_cast
      ring
    rw [hcast, Real.log_inv]
    have hner : ((eng.config.num_outcomes : ℕ) : ℝ) ≠ 0 := by
      exact_mod_cast Nat.pos_iff_ne_zero.mp hnn
    rw [← mul_assoc, mul_inv_cancel₀ hner, one_mul, neg_neg]

/-- Witness for C8 with three outcomes and liquidity `10` (spec scenario
2/5). -/
theorem C8_empty_bets_risk_witness :
    ∃ pr, RiskAssessmentEngine.assess_risk ⟨⟨some 10, 3, .Categorical⟩⟩ [] = .ok pr ∧
      pr.liquidity_risk = 1 ∧
      pr.concentration = 1 / ((3 : Nat) : ℚ) ∧
      pr.entropy = Real.log ((3 : Nat) : ℝ) :=
  C8_empty_bets_risk ⟨⟨some 10, 3, .Categorical⟩⟩ 10 (by norm_num) rfl (by norm_num)

/-- Claim C9: the facade operations are deterministic — an identical
configuration and identical bet list produce identical results (success or
error) for all four public operations. -/
theorem C9_deterministic (lp : Option ℚ) (n : Nat) (mt : MarketType)
    (bets bets2 : List Bet) (i : Nat) (hb : bets = bets2) :
    PredictionMarketEngine.calculate_probabilities
        (PredictionMarketEngine.new lp n mt) bets
      = PredictionMarketEngine.calculate_probabilities
        (PredictionMarketEngine.new lp n mt) bets2 ∧
    PredictionMarketEngine.calculate_price (PredictionMarketEngine.new lp n mt) bets i
      = PredictionMarketEngine.calculate_price
        (PredictionMarketEngine.new lp n mt) bets2 i ∧
    PredictionMarketEngine.simulate_market_making
        (PredictionMarketEngine.new lp n mt) bets
      = PredictionMarketEngine.simulate_market_making
        (PredictionMarketEngine.new lp n mt) bets2 ∧
    PredictionMarketEngine.assess_market_risk (PredictionMarketEngine.new lp n mt) bets
      = PredictionMarketEngine.assess_market_risk
        (PredictionMarketEngine.new lp n mt) bets2 := by
  subst hb
  exact ⟨rfl, rfl, rfl, rfl⟩

/-- Witness for C9 on a concrete engine and bet list. -/
theorem C9_deterministic_witness :
    PredictionMarketEngine.calculate_probabilities
        (PredictionMarketEngine.new (some 10) 2 .Binary) [⟨0, some 5⟩]
      = PredictionMarketEngine.calculate_probabilities
        (PredictionMarketEngine.new (some 10) 2 .Binary) [⟨0, some 5⟩] ∧
    PredictionMarketEngine.calculate_price
        (PredictionMarketEngine.new (some 10) 2 .Binary) [⟨0, some 5⟩] 0
      = PredictionMarketEngine.calculate_price
        (PredictionMarketEngine.new (some 10) 2 .Binary) [⟨0, some 5⟩] 0 ∧
    PredictionMarketEngine.simulate_market_making
        (PredictionMarketEngine.new (some 10) 2 .Binary) [⟨0, some 5⟩]
      = PredictionMarketEngine.simulate_market_making
        (PredictionMarketEngine.new (some 10) 2 .Binary) [⟨0, some 5⟩] ∧
    PredictionMarketEngine.assess_market_risk
        (PredictionMarketEngine.new (some 10) 2 .Binary) [⟨0, some 5⟩]
      = PredictionMarketEngine.assess_market_risk
        (PredictionMarketEngine.new (some 10) 2 .Binary) [⟨0, some 5⟩] :=
  C9_deterministic (some 10) 2 .Binary [⟨0, some 5⟩] [⟨0, some 5⟩] 0 rfl

end BNBMarket
